import Mathlib

/-!
Verification of the relevance-feedback and query-reformulation engine in
src/run.py (iterative TF-IDF / Rocchio query expansion).

Modelling conventions:
- Python dicts are insertion-ordered association lists over String keys;
  get / set / get-with-default are dGet / dSet / dGetD below.
- Python floats are modelled as rationals; the only transcendental
  operation, math.log(x, 2), is an external math-library call and is
  passed in as a parameter log2 : Rat -> Rat.
- External collaborators (the Google search client, the human judge,
  nltk word_tokenize and its stopword list, the page fetcher and the
  Brown-corpus bigram table) are parameters, collected in Env for the
  main loop.
- Python operations that can raise (list indexing out of range) are
  modelled with Option: none is an uncaught exception.
-/

/-- Python str.lower (character-wise, as for the ASCII URLs and tokens used here). -/
def strLower (s : String) : String := String.mk (s.toList.map Char.toLower)

/-- Python str.endswith. -/
def strEnds (s suf : String) : Bool := suf.toList.isSuffixOf s.toList

/-- Python str.split() with no argument: split on whitespace runs, dropping empties. -/
def splitWSAux : List Char → List Char → List String
  | [], cur => if cur = [] then [] else [String.mk cur.reverse]
  | c :: rest, cur =>
    if c.isWhitespace then
      if cur = [] then splitWSAux rest []
      else String.mk cur.reverse :: splitWSAux rest []
    else splitWSAux rest (c :: cur)

/-- Python str.split() on a whole string. -/
def pySplit (s : String) : List String := splitWSAux s.toList []

/-- Python " ".join(terms). -/
def joinSp : List String → String
  | [] => ""
  | [t] => t
  | t :: rest => t ++ " " ++ joinSp rest

/-- Python dict lookup, first-match semantics (dicts built below never have duplicate keys). -/
def dGet {α : Type} (m : List (String × α)) (k : String) : Option α :=
  (m.find? (fun p => p.1 = k)).map Prod.snd

/-- Python dict.get(k, d). -/
def dGetD {α : Type} (m : List (String × α)) (k : String) (d : α) : α :=
  (dGet m k).getD d

/-- Python dict assignment d[k] = v: replace in place keeping position, else append. -/
def dSet {α : Type} : List (String × α) → String → α → List (String × α)
  | [], k, v => [(k, v)]
  | p :: rest, k, v => if p.1 = k then (k, v) :: rest else p :: dSet rest k v

/-- Keys of a dict, in insertion order. -/
def dKeys {α : Type} (m : List (String × α)) : List String := m.map Prod.fst

/-- Per-document term-frequency map (term -> occurrence count). -/
abbrev TFMap := List (String × ℕ)

/-- Batch-wide document-frequency map (term -> number of documents containing it). -/
abbrev DFMap := List (String × ℕ)

/-- Real-valued term vector (query vector, document vectors, centroids). -/
abbrev TermVector := List (String × ℚ)

/-- One retrieved document: the tuple (title, link, snippet, is_html) of run.py. -/
structure Doc where
  title : String
  url : String
  snippet : String
  is_html : Bool
  deriving DecidableEq, Repr

/-- Raw search item (title, link, snippet) before the core derives the HTML flag. -/
structure RawResult where
  title : String
  url : String
  snippet : String
  deriving DecidableEq, Repr

/-- NON_HTML_EXTENSIONS from run.py. -/
def NON_HTML_EXTENSIONS : List String :=
  [".pdf", ".doc", ".docx", ".ppt", ".pptx", ".xls", ".xlsx"]

/-- is_likely_html from run.py: lowercase the URL, return False iff it ends
with one of the non-HTML extensions. -/
def is_likely_html (url : String) : Bool :=
  !(NON_HTML_EXTENSIONS.any (fun ext => strEnds (strLower url) ext))

/-- Characters after the first scheme separator of a URL, if any. -/
def afterSchemeAux : List Char → Option (List Char)
  | ':' :: '/' :: '/' :: rest => some rest
  | _ :: rest => afterSchemeAux rest
  | [] => none

/-- Modelled from the spec: the path component of a URL — the part of the
URL after the scheme-and-host prefix and before any query string or
fragment. Used only to state the spec side of the indexable-flag claim;
the code itself never extracts the path. -/
def urlPath (url : String) : String :=
  let rest : List Char :=
    match afterSchemeAux url.toList with
    | some r => r
    | none => url.toList
  String.mk ((rest.dropWhile (fun c => c ≠ '/')).takeWhile (fun c => c ≠ '?' ∧ c ≠ '#'))

/-- The spec's predicate for a non-indexable URL: the URL's lowercased path
ends with one of the fixed non-HTML extensions. -/
def specNonHtmlPath (url : String) : Bool :=
  NON_HTML_EXTENSIONS.any (fun ext => strEnds (strLower (urlPath url)) ext)

/-- compute_precision from run.py: precision among HTML documents only,
0.0 when no HTML document is in the batch. -/
def compute_precision (results : List Doc) (relevance : List Bool) : ℚ :=
  let html_docs := (results.zip relevance).filter (fun p => p.1.is_html)
  if html_docs = [] then 0
  else (html_docs.countP (fun p => p.2) : ℚ) / (html_docs.length : ℚ)

/-- Python str.isalpha: nonempty and all characters alphabetic. -/
def isalpha (t : String) : Bool := !t.toList.isEmpty && t.toList.all Char.isAlpha

/-- tokenize from run.py, with nltk word_tokenize and the stopword set as
external parameters: lowercase, tokenize, keep alphabetic non-stopword tokens. -/
def tokenize (word_tokenize : String → List String) (stop_words : List String)
    (text : String) : List String :=
  (word_tokenize (strLower text)).filter (fun t => isalpha t && !(stop_words.contains t))

/-- The tf_map accumulation loop of build_tfidf_index: count each token. -/
def buildTF (tokens : List String) : TFMap :=
  tokens.foldl (fun m t => dSet m t (dGetD m t 0 + 1)) []

/-- The distinct tokens of a document, modelling Python set(tokens) (whose
iteration order is arbitrary; no result below depends on this order). -/
def dedupKeepFirst : List String → List String
  | [] => []
  | x :: rest => x :: (dedupKeepFirst rest).filter (fun y => y ≠ x)

/-- The df update loop of build_tfidf_index: bump df once per distinct token
of this document (Python iterates over set(tokens)). -/
def bumpDF (df : DFMap) (tokens : List String) : DFMap :=
  (dedupKeepFirst tokens).foldl (fun m t => dSet m t (dGetD m t 0 + 1)) df

/-- The document loop of build_tfidf_index, threading the df accumulator. -/
def buildIndexAux (tok : String → List String) (fetch : String → String)
    (use_full_text : Bool) : List Doc → DFMap → List TFMap × DFMap
  | [], df => ([], df)
  | doc :: rest, df =>
    if doc.is_html = false then
      let out := buildIndexAux tok fetch use_full_text rest df
      ([] :: out.1, out.2)
    else
      let text :=
        if use_full_text then doc.title ++ " " ++ fetch doc.url
        else doc.title ++ " " ++ doc.snippet
      let tokens := tok text
      let out := buildIndexAux tok fetch use_full_text rest (bumpDF df tokens)
      (buildTF tokens :: out.1, out.2)

/-- build_tfidf_index from run.py: per-document term-frequency maps (empty
for non-HTML documents) and the batch document-frequency map. -/
def build_tfidf_index (tok : String → List String) (fetch : String → String)
    (results : List Doc) (use_full_text : Bool) : List TFMap × DFMap :=
  buildIndexAux tok fetch use_full_text results []

/-- Body of the term loop of compute_doc_vector: a term with positive
document frequency gets weight (tf / total) * log2(N / df), any other term is
skipped. -/
def cdvStep (log2 : ℚ → ℚ) (total_terms N : ℕ) (df : DFMap)
    (v : TermVector) (p : String × ℕ) : TermVector :=
  match dGet df p.1 with
  | some d =>
    if 0 < d then
      dSet v p.1 (((p.2 : ℚ) / (total_terms : ℚ)) * log2 ((N : ℚ) / (d : ℚ)))
    else v
  | none => v

/-- compute_doc_vector from run.py: normalized TF-IDF vector of one document. -/
def compute_doc_vector (log2 : ℚ → ℚ) (tf_map : TFMap) (N : ℕ) (df : DFMap) : TermVector :=
  let total_terms : ℕ := (tf_map.map Prod.snd).sum
  if total_terms = 0 then []
  else tf_map.foldl (cdvStep log2 total_terms N df) []

/-- The Q0 construction of pick_new_terms_rocchio: multiplicity of each
lowercased current query term. -/
def buildQ0 (current_query_terms : List String) : TermVector :=
  current_query_terms.foldl (fun q t => dSet q (strLower t) (dGetD q (strLower t) 0 + 1)) []

/-- Accumulate one document vector into a centroid accumulator
(the inner for-loop over doc_vector.items()). -/
def vecAdd (acc : TermVector) (v : TermVector) : TermVector :=
  v.foldl (fun a p => dSet a p.1 (dGetD a p.1 0 + p.2)) acc

/-- Divide every weight of a vector by a document count (the averaging loops). -/
def vecDiv (v : TermVector) (n : ℕ) : TermVector :=
  v.map (fun p => (p.1, p.2 / (n : ℚ)))

/-- The document loop of pick_new_terms_rocchio: skip documents with an empty
tf_map, otherwise read relevance[idx] (none models the IndexError when idx is
out of range) and accumulate the document vector into the matching centroid,
incrementing its counter. Accumulator: (relevant_vec, non_relevant_vec,
num_rel, num_non_rel). -/
def rocchioAccum (log2 : ℚ → ℚ) (N : ℕ) (df : DFMap) (relevance : List Bool) :
    ℕ → List TFMap → TermVector × TermVector × ℕ × ℕ →
    Option (TermVector × TermVector × ℕ × ℕ)
  | _, [], acc => some acc
  | idx, tf_map :: rest, (rv, nv, nr, nn) =>
    if tf_map = [] then rocchioAccum log2 N df relevance (idx + 1) rest (rv, nv, nr, nn)
    else
      match relevance[idx]? with
      | none => none
      | some rel =>
        let doc_vector := compute_doc_vector log2 tf_map N df
        if rel then
          rocchioAccum log2 N df relevance (idx + 1) rest (vecAdd rv doc_vector, nv, nr + 1, nn)
        else
          rocchioAccum log2 N df relevance (idx + 1) rest (rv, vecAdd nv doc_vector, nr, nn + 1)

/-- The Rocchio combination loops: alpha * Q0, then add beta times the
averaged relevant vector, then subtract gamma times the averaged
non-relevant vector, as a mapping union. -/
def newQueryVec (alpha beta gamma : ℚ) (Q0 relevant_vec non_relevant_vec : TermVector) :
    TermVector :=
  let v1 := Q0.foldl (fun m p => dSet m p.1 (alpha * p.2)) []
  let v2 := relevant_vec.foldl (fun m p => dSet m p.1 (dGetD m p.1 0 + beta * p.2)) v1
  non_relevant_vec.foldl (fun m p => dSet m p.1 (dGetD m p.1 0 - gamma * p.2)) v2

/-- The new query vector computed inside pick_new_terms_rocchio, up to and
including the Rocchio formula (N is len(docs_tokens); averaging divides by
the respective counts only when they are positive). -/
def rocchio_new_query_vec (log2 : ℚ → ℚ) (current_query_terms : List String)
    (docs_tokens : List TFMap) (df : DFMap) (relevance : List Bool)
    (alpha beta gamma : ℚ) : Option TermVector :=
  let N := docs_tokens.length
  let Q0 := buildQ0 current_query_terms
  match rocchioAccum log2 N df relevance 0 docs_tokens ([], [], 0, 0) with
  | none => none
  | some (relevant_vec, non_relevant_vec, num_rel, num_non_rel) =>
    let rv := if 0 < num_rel then vecDiv relevant_vec num_rel else relevant_vec
    let nv := if 0 < num_non_rel then vecDiv non_relevant_vec num_non_rel else non_relevant_vec
    some (newQueryVec alpha beta gamma Q0 rv nv)

/-- The final selection loop of pick_new_terms_rocchio: walk the sorted
candidates, append positive-score terms, stop as soon as max_new_terms
are collected. -/
def selectLoop (max_new_terms : ℕ) : List (String × ℚ) → List String → List String
  | [], new_terms => new_terms
  | (term, score) :: rest, new_terms =>
    let new_terms2 := if 0 < score then new_terms ++ [term] else new_terms
    if max_new_terms ≤ new_terms2.length then new_terms2
    else selectLoop max_new_terms rest new_terms2

/-- Insert an earlier element into an already descending-sorted list, before
the first entry of smaller-or-equal score (so equal scores keep original
order, matching Python sort stability). -/
def insertDesc (p : String × ℚ) : List (String × ℚ) → List (String × ℚ)
  | [] => [p]
  | q :: rest => if q.2 ≤ p.2 then p :: q :: rest else q :: insertDesc p rest

/-- Stable descending sort by score: the output Python's stable
list.sort(key score, reverse True) produces. -/
def sortByScoreDesc : List (String × ℚ) → List (String × ℚ)
  | [] => []
  | p :: rest => insertDesc p (sortByScoreDesc rest)

/-- pick_new_terms_rocchio from run.py (defaults at the call site:
max_new_terms = 2, alpha = 1, beta = 3/4, gamma = 3/20). Candidates are the
new-query-vector entries whose term is not in the lowercased current query,
sorted descending by score with a stable sort, as Python list.sort does. -/
def pick_new_terms_rocchio (log2 : ℚ → ℚ) (current_query_terms : List String)
    (docs_tokens : List TFMap) (df : DFMap) (relevance : List Bool)
    (max_new_terms : ℕ) (alpha beta gamma : ℚ) : Option (List String) :=
  match rocchio_new_query_vec log2 current_query_terms docs_tokens df relevance alpha beta gamma with
  | none => none
  | some new_query_vec =>
    let current_set := current_query_terms.map strLower
    let candidate_terms := new_query_vec.filter (fun p => !(current_set.contains p.1))
    let sorted_terms := sortByScoreDesc candidate_terms
    some (selectLoop max_new_terms sorted_terms [])

/-- reorder_query from run.py: reads terms[0] and terms[1] unconditionally
(none models the IndexError on shorter lists), keeps the given order when
freq(term1, term2) is at least freq(term2, term1), else swaps. -/
def reorder_query (bigram_freq : String → String → ℕ) (terms : List String) :
    Option (List String) :=
  match terms with
  | word1 :: word2 :: _ =>
    some (if bigram_freq word2 word1 ≤ bigram_freq word1 word2 then terms else [word2, word1])
  | _ => none

/-- External collaborators of the main loop. -/
structure Env where
  search : String → List RawResult
  judge : ℕ → ℕ → Bool
  word_tokenize : String → List String
  stop_words : List String
  fetch_full_text : String → String
  bigram_freq : String → String → ℕ
  log2 : ℚ → ℚ

/-- search_query from run.py: the external client's items, with the HTML flag
derived by the core from each link. -/
def search_query (env : Env) (q : String) : List Doc :=
  (env.search q).map (fun r => ⟨r.title, r.url, r.snippet, is_likely_html r.url⟩)

/-- Why one iteration of the main loop stopped. -/
inductive StopReason where
  | fewResultsFirst
  | noResults
  | precisionReached
  | precisionZero
  | noNewTerms
  deriving DecidableEq, Repr

/-- Result of one iteration of the while-loop in main: stop before judging,
stop after judging (carrying the judgments collected), crash (uncaught
exception), or continue with the expanded query. -/
inductive StepResult where
  | stopEarly (reason : StopReason)
  | stopAfter (reason : StopReason) (js : List Bool)
  | crash (js : List Bool)
  | next (q : List String) (js : List Bool)
  deriving DecidableEq, Repr

/-- One iteration of the while-loop in main, in source order: search, the
first-iteration under-10 check, the empty check, judgment collection,
precision, the two precision stopping conditions, indexing (full-text mode),
Rocchio selection, the no-new-terms stop, reorder, query extension. -/
def loopStep (env : Env) (target_precision : ℚ) (iteration : ℕ)
    (current_query_terms : List String) : StepResult :=
  let results := search_query env (joinSp current_query_terms)
  if results.length < 10 ∧ iteration = 1 then .stopEarly .fewResultsFirst
  else if results = [] then .stopEarly .noResults
  else
    let relevance := (List.range results.length).map (env.judge iteration)
    let precision := compute_precision results relevance
    if target_precision ≤ precision then .stopAfter .precisionReached relevance
    else if precision = 0 then .stopAfter .precisionZero relevance
    else
      let idx := build_tfidf_index (tokenize env.word_tokenize env.stop_words)
        env.fetch_full_text results true
      match pick_new_terms_rocchio env.log2 current_query_terms idx.1 idx.2 relevance
        2 1 (3 / 4) (3 / 20) with
      | none => .crash relevance
      | some [] => .stopAfter .noNewTerms relevance
      | some new_terms =>
        match reorder_query env.bigram_freq new_terms with
        | none => .crash relevance
        | some reordered => .next (current_query_terms ++ reordered) relevance

/-- Outcome of the whole loop: normal termination with the final query and
stop reason, a crash, or fuel exhaustion (the loop itself has no iteration
bound). -/
inductive LoopOutcome where
  | finished (final_query : List String) (reason : StopReason)
  | crashed
  | fuelOut (query : List String)
  deriving DecidableEq, Repr

/-- The while-loop of main, with fuel, also returning the list of judgment
vectors collected (one entry per iteration that reached the feedback prompt). -/
def runLoop (env : Env) (target_precision : ℚ) :
    ℕ → ℕ → List String → LoopOutcome × List (List Bool)
  | 0, _, q => (.fuelOut q, [])
  | fuel + 1, iteration, q =>
    match loopStep env target_precision iteration q with
    | .stopEarly r => (.finished q r, [])
    | .stopAfter r js => (.finished q r, [js])
    | .crash js => (.crashed, [js])
    | .next q2 js =>
      let out := runLoop env target_precision fuel (iteration + 1) q2
      (out.1, js :: out.2)

/-- main from run.py: split the initial query on whitespace and run the loop
from iteration 1. -/
def main_loop (env : Env) (target_precision : ℚ) (initial_query : String) (fuel : ℕ) :
    LoopOutcome × List (List Bool) :=
  runLoop env target_precision fuel 1 (pySplit initial_query)

/-! ## Association-list dictionary lemmas -/

theorem dGet_nil {α : Type} (k : String) : dGet ([] : List (String × α)) k = none := rfl

theorem dGet_cons {α : Type} (p : String × α) (m : List (String × α)) (k : String) :
    dGet (p :: m) k = if p.1 = k then some p.2 else dGet m k := by
  by_cases h : p.1 = k
  · simp [dGet, List.find?, h]
  · simp [dGet, List.find?, h]

theorem dKeys_nil {α : Type} : dKeys ([] : List (String × α)) = [] := rfl

theorem dKeys_cons {α : Type} (p : String × α) (m : List (String × α)) :
    dKeys (p :: m) = p.1 :: dKeys m := rfl

theorem dGet_dSet_self {α : Type} (m : List (String × α)) (k : String) (v : α) :
    dGet (dSet m k v) k = some v := by
  induction m with
  | nil => simp [dSet, dGet, List.find?]
  | cons p rest ih =>
    by_cases h : p.1 = k
    · simp [dSet, h, dGet_cons]
    · simp [dSet, h, dGet_cons, ih]

theorem dGet_dSet_ne {α : Type} (m : List (String × α)) {k k' : String} (v : α) (h : k' ≠ k) :
    dGet (dSet m k v) k' = dGet m k' := by
  induction m with
  | nil => simp [dSet, dGet_cons, dGet, Ne.symm h, List.find?]
  | cons p rest ih =>
    by_cases hp : p.1 = k
    · simp [dSet, hp, dGet_cons, Ne.symm h, hp ▸ (Ne.symm h)]
    · simp [dSet, hp, dGet_cons, ih]

theorem dSet_of_not_mem {α : Type} (m : List (String × α)) (k : String) (v : α)
    (h : k ∉ dKeys m) : dSet m k v = m ++ [(k, v)] := by
  induction m with
  | nil => rfl
  | cons p rest ih =>
    simp only [dKeys_cons, List.mem_cons, not_or] at h
    simp [dSet, Ne.symm h.1, ih h.2]

theorem dKeys_dSet_of_mem {α : Type} (m : List (String × α)) (k : String) (v : α)
    (h : k ∈ dKeys m) : dKeys (dSet m k v) = dKeys m := by
  induction m with
  | nil => simp [dKeys] at h
  | cons p rest ih =>
    by_cases hp : p.1 = k
    · simp [dSet, hp, dKeys_cons]
    · simp only [dKeys_cons, List.mem_cons] at h
      rcases h with h | h
    
      · exact absurd h.symm hp
      · simp [dSet, hp, dKeys_cons, ih h]

theorem mem_dKeys_dSet {α : Type} (m : List (String × α)) (k : String) (v : α) (t : String) :
    t ∈ dKeys (dSet m k v) ↔ t ∈ dKeys m ∨ t = k := by
  by_cases hk : k ∈ dKeys m
  · rw [dKeys_dSet_of_mem m k v hk]
    constructor
    · exact Or.inl
    · rintro (h | rfl)
      · exact h
      · exact hk
  · rw [dSet_of_not_mem m k v hk]
    simp [dKeys]

theorem nodup_dKeys_dSet {α : Type} (m : List (String × α)) (k : String) (v : α)
    (h : (dKeys m).Nodup) : (dKeys (dSet m k v)).Nodup := by
  by_cases hk : k ∈ dKeys m
  · rw [dKeys_dSet_of_mem m k v hk]; exact h
  · rw [dSet_of_not_mem m k v hk]
    have hkeys : dKeys (m ++ [(k, v)]) = dKeys m ++ [k] := by simp [dKeys]
    rw [hkeys]
    refine List.Nodup.append h (List.nodup_singleton _) ?_
    intro a ha hb
    simp only [List.mem_singleton] at hb
    subst hb
    exact hk ha

theorem dGet_isSome_iff {α : Type} (m : List (String × α)) (k : String) :
    (dGet m k).isSome ↔ k ∈ dKeys m := by
  induction m with
  | nil => simp [dGet, dKeys, List.find?]
  | cons p rest ih =>
    by_cases hp : p.1 = k
    · simp [dGet_cons, hp, dKeys_cons]
    · simp [dGet_cons, hp, dKeys_cons, ih, Ne.symm hp]

theorem dGet_eq_none_of_not_mem {α : Type} {m : List (String × α)} {k : String}
    (h : k ∉ dKeys m) : dGet m k = none := by
  have := (dGet_isSome_iff m k).not.mpr h
  cases hg : dGet m k with
  | none => rfl
  | some v => rw [hg] at this; simp at this

theorem mem_of_dGet {α : Type} {m : List (String × α)} {k : String} {v : α}
    (h : dGet m k = some v) : (k, v) ∈ m := by
  induction m with
  | nil => simp [dGet, List.find?] at h
  | cons p rest ih =>
    obtain ⟨a, b⟩ := p
    rw [dGet_cons] at h
    by_cases hp : a = k
    · subst hp
      simp only [if_pos] at h
      have hb : b = v := by simpa using h
      subst hb
      exact List.mem_cons_self _ _
    · rw [if_neg hp] at h
      exact List.mem_cons_of_mem _ (ih h)

theorem dGet_of_mem_nodup {α : Type} {m : List (String × α)} {k : String} {v : α}
    (hn : (dKeys m).Nodup) (h : (k, v) ∈ m) : dGet m k = some v := by
  induction m with
  | nil => simp at h
  | cons p rest ih =>
    simp only [dKeys_cons, List.nodup_cons] at hn
    rcases List.mem_cons.mp h with h | h
    · subst h
      simp [dGet_cons]
    · have hk : k ∈ dKeys rest := by
        simpa [dKeys] using List.mem_map_of_mem Prod.fst h
      have hp : p.1 ≠ k := fun e => hn.1 (e ▸ hk)
      rw [dGet_cons, if_neg hp]
      exact ih hn.2 h

/-! ## Generic lemmas about dictionary-building folds -/

theorem mem_dKeys_foldl {α β : Type} (step : List (String × α) → β → List (String × α))
    (K : β → List String)
    (hstep : ∀ m a t, t ∈ dKeys (step m a) → t ∈ dKeys m ∨ t ∈ K a) :
    ∀ (l : List β) (init : List (String × α)) (t : String),
      t ∈ dKeys (l.foldl step init) → t ∈ dKeys init ∨ ∃ a ∈ l, t ∈ K a := by
  intro l
  induction l with
  | nil => intro init t h; exact Or.inl h
  | cons a rest ih =>
    intro init t h
    rcases ih (step init a) t h with h2 | ⟨b, hb, ht⟩
    · rcases hstep init a t h2 with h3 | h3
      · exact Or.inl h3
      · exact Or.inr ⟨a, by simp, h3⟩
    · exact Or.inr ⟨b, by simp [hb], ht⟩

theorem nodup_dKeys_foldl {α β : Type} (step : List (String × α) → β → List (String × α))
    (hstep : ∀ m a, (dKeys m).Nodup → (dKeys (step m a)).Nodup) :
    ∀ (l : List β) (init : List (String × α)),
      (dKeys init).Nodup → (dKeys (l.foldl step init)).Nodup := by
  intro l
  induction l with
  | nil => intro init h; exact h
  | cons a rest ih => intro init h; exact ih (step init a) (hstep init a h)

theorem foldl_dSet_not_mem {α β : Type} (step : List (String × α) → β → List (String × α))
    (K : β → List String)
    (hstep : ∀ m a t, t ∉ K a → dGet (step m a) t = dGet m t) :
    ∀ (l : List β) (init : List (String × α)) (t : String),
      (∀ a ∈ l, t ∉ K a) → dGet (l.foldl step init) t = dGet init t := by
  intro l
  induction l with
  | nil => intro init t _; rfl
  | cons a rest ih =>
    intro init t h
    rw [List.foldl_cons, ih (step init a) t (fun b hb => h b (by simp [hb])),
      hstep init a t (h a (by simp))]

/-! ## C3: the indexable flag and URL extensions -/

/-- C3 (amended claim): is_likely_html url is false iff the lowercased URL
string (not just its path) ends with one of the fixed non-HTML extensions
.pdf .doc .docx .ppt .pptx .xls .xlsx; for every other URL it is true. -/
theorem is_likely_html_false_iff (url : String) :
    is_likely_html url = false ↔
      ∃ ext ∈ NON_HTML_EXTENSIONS, strEnds (strLower url) ext = true := by
  simp [is_likely_html, List.any_eq_true]

/-- C3 (counterexample to the claim as stated): the code checks the whole
lowercased URL string with endswith, not the URL's path, so a URL whose query
string ends in ".pdf" while its path is "/page" gets indexable = false even
though its lowercased path ends with no non-HTML extension — the claim as
stated would require the flag to be true there. -/
theorem is_likely_html_path_counterexample :
    is_likely_html "http://example.com/page?file=.pdf" = false ∧
    urlPath "http://example.com/page?file=.pdf" = "/page" ∧
    specNonHtmlPath "http://example.com/page?file=.pdf" = false := by
  refine ⟨by decide, by decide, by decide⟩

/-! ## C4: reorder_query on fewer than two terms -/

/-- C4 (code-bug evidence): reorder_query reads terms[0] and terms[1]
unconditionally, so called on a one-term or empty list — which main does
whenever the selector returns a single term — it raises IndexError (modelled
as none) instead of returning the input unchanged as the spec requires. -/
theorem reorder_query_short_input_crash :
    reorder_query (fun _ _ => 0) ["galaxy"] = none ∧
    reorder_query (fun _ _ => 0) [] = none :=
  ⟨rfl, rfl⟩

/-! ## C2: compute_precision -/

theorem filter_zip_fst_length (results : List Doc) (relevance : List Bool)
    (h : results.length = relevance.length) :
    ((results.zip relevance).filter (fun p => p.1.is_html)).length =
      results.countP (fun d => d.is_html) := by
  induction results generalizing relevance with
  | nil => simp
  | cons d rest ih =>
    cases relevance with
    | nil => simp at h
    | cons b rb =>
      simp only [List.zip_cons_cons, List.filter_cons, List.countP_cons]
      by_cases hd : d.is_html <;>
        simp [hd, ih rb (by simpa using h)]

/-- C2: with an aligned judgment sequence, compute_precision returns
(number of indexable documents judged relevant) / (number of indexable
documents) as soon as at least one document of the batch is indexable, and
returns exactly 0 when no document of the batch is indexable, whatever the
judgments are. -/
theorem compute_precision_spec (results : List Doc) (relevance : List Bool)
    (h : results.length = relevance.length) :
    (results.countP (fun d => d.is_html) = 0 → compute_precision results relevance = 0) ∧
    (0 < results.countP (fun d => d.is_html) →
      compute_precision results relevance =
        ((results.zip relevance).countP (fun p => p.1.is_html && p.2) : ℚ) /
          (results.countP (fun d => d.is_html) : ℚ)) := by
  have hlen := filter_zip_fst_length results relevance h
  constructor
  · intro h0
    have hnil : ((results.zip relevance).filter (fun p => p.1.is_html)) = [] := by
      rw [← List.length_eq_zero]
      omega
    simp [compute_precision, hnil]
  · intro hpos
    have hne : ¬ ((results.zip relevance).filter (fun p => p.1.is_html)) = [] := by
      intro heq
      rw [heq] at hlen
      simp only [List.length_nil] at hlen
      omega
    rw [compute_precision]
    rw [if_neg hne, List.countP_filter, hlen]
    congr 2
    exact List.countP_congr (fun a _ => by cases ha : a.1.is_html <;> cases hb : a.2 <;> simp [ha, hb])

/-- Witness for C2 at a concrete batch: three documents, two indexable, with
judgments true, false, true; precision is 1/2. -/
theorem compute_precision_spec_witness :
    ([⟨"a", "http://a.com", "", true⟩, ⟨"b", "http://b.com/x.pdf", "", false⟩,
      ⟨"c", "http://c.com", "", true⟩] : List Doc).length =
        ([true, false, true] : List Bool).length ∧
    (([⟨"a", "http://a.com", "", true⟩, ⟨"b", "http://b.com/x.pdf", "", false⟩,
      ⟨"c", "http://c.com", "", true⟩] : List Doc).countP (fun d => d.is_html) = 0 →
      compute_precision [⟨"a", "http://a.com", "", true⟩, ⟨"b", "http://b.com/x.pdf", "", false⟩,
        ⟨"c", "http://c.com", "", true⟩] [true, false, true] = 0) ∧
    (0 < ([⟨"a", "http://a.com", "", true⟩, ⟨"b", "http://b.com/x.pdf", "", false⟩,
      ⟨"c", "http://c.com", "", true⟩] : List Doc).countP (fun d => d.is_html) →
      compute_precision [⟨"a", "http://a.com", "", true⟩, ⟨"b", "http://b.com/x.pdf", "", false⟩,
        ⟨"c", "http://c.com", "", true⟩] [true, false, true] =
        ((([⟨"a", "http://a.com", "", true⟩, ⟨"b", "http://b.com/x.pdf", "", false⟩,
          ⟨"c", "http://c.com", "", true⟩] : List Doc).zip [true, false, true]).countP
            (fun p => p.1.is_html && p.2) : ℚ) /
          (([⟨"a", "http://a.com", "", true⟩, ⟨"b", "http://b.com/x.pdf", "", false⟩,
            ⟨"c", "http://c.com", "", true⟩] : List Doc).countP (fun d => d.is_html) : ℚ)) :=
  ⟨rfl, (compute_precision_spec _ _ rfl).1, (compute_precision_spec _ _ rfl).2⟩

/-! ## C6 and C8: stopping behavior of the feedback loop -/

/-- C6: when the first iteration's retrieval returns fewer than 10 results,
the loop halts immediately with no judgments collected and the final query is
the initial query's term sequence unchanged. -/
theorem first_iteration_under_ten_halts (env : Env) (target_precision : ℚ) (fuel : ℕ)
    (initial_query : String)
    (h : (env.search (joinSp (pySplit initial_query))).length < 10) :
    main_loop env target_precision initial_query (fuel + 1) =
      (.finished (pySplit initial_query) .fewResultsFirst, []) := by
  have hlen : (search_query env (joinSp (pySplit initial_query))).length < 10 := by
    simpa [search_query] using h
  have hstep : loopStep env target_precision 1 (pySplit initial_query) =
      .stopEarly .fewResultsFirst := by
    simp only [loopStep]
    rw [if_pos ⟨hlen, trivial⟩]
  simp [main_loop, runLoop, hstep]

/-- A concrete environment whose search always returns seven results. -/
def envSeven : Env :=
  ⟨fun _ => List.replicate 7 ⟨"t", "http://a.com", "s"⟩, fun _ _ => false, fun _ => [], [],
   fun _ => "", fun _ _ => 0, fun _ => 0⟩

/-- Witness for C6: seven results in the first iteration halt the loop with
the initial two-term query untouched. -/
theorem first_iteration_under_ten_halts_witness :
    (envSeven.search (joinSp (pySplit "milky way"))).length < 10 ∧
    main_loop envSeven (9 / 10) "milky way" (3 + 1) =
      (.finished (pySplit "milky way") .fewResultsFirst, []) :=
  ⟨by decide, first_iteration_under_ten_halts envSeven (9 / 10) 3 "milky way" (by decide)⟩

/-- C8: in any iteration whose computed precision is exactly 0, the loop halts
at that iteration with the query unexpanded, whatever the target precision is
(through the target-reached stop when the target is nonpositive, and through
the zero-precision stop otherwise). -/
theorem precision_zero_halts (env : Env) (target_precision : ℚ) (iteration fuel : ℕ)
    (q : List String)
    (h10 : ¬ ((search_query env (joinSp q)).length < 10 ∧ iteration = 1))
    (hne : search_query env (joinSp q) ≠ [])
    (hp : compute_precision (search_query env (joinSp q))
        ((List.range (search_query env (joinSp q)).length).map (env.judge iteration)) = 0) :
    runLoop env target_precision (fuel + 1) iteration q =
      (.finished q (if target_precision ≤ 0 then .precisionReached else .precisionZero),
       [(List.range (search_query env (joinSp q)).length).map (env.judge iteration)]) := by
  have hstep : loopStep env target_precision iteration q =
      .stopAfter (if target_precision ≤ 0 then .precisionReached else .precisionZero)
        ((List.range (search_query env (joinSp q)).length).map (env.judge iteration)) := by
    simp only [loopStep]
    rw [if_neg h10, if_neg hne, hp]
    by_cases ht : target_precision ≤ 0
    · simp [ht]
    · simp [ht]
  simp [runLoop, hstep]

/-- A concrete environment whose search returns one non-indexable result and
whose judge always answers yes. -/
def envOnePdf : Env :=
  ⟨fun _ => [⟨"t", "http://x.com/a.pdf", "s"⟩], fun _ _ => true, fun _ => [], [],
   fun _ => "", fun _ _ => 0, fun _ => 0⟩

/-- Witness for C8 at a concrete state: an iteration (numbered 2) whose batch
has no indexable document has precision exactly 0 and stops the loop with the
query unexpanded even though the target 9/10 was not reached. -/
theorem precision_zero_halts_witness :
    ¬ ((search_query envOnePdf (joinSp ["milky", "way"])).length < 10 ∧ (2 : ℕ) = 1) ∧
    search_query envOnePdf (joinSp ["milky", "way"]) ≠ [] ∧
    compute_precision (search_query envOnePdf (joinSp ["milky", "way"]))
      ((List.range (search_query envOnePdf (joinSp ["milky", "way"])).length).map
        (envOnePdf.judge 2)) = 0 ∧
    runLoop envOnePdf (9 / 10) (0 + 1) 2 ["milky", "way"] =
      (.finished ["milky", "way"]
        (if (9 / 10 : ℚ) ≤ 0 then .precisionReached else .precisionZero),
       [(List.range (search_query envOnePdf (joinSp ["milky", "way"])).length).map
         (envOnePdf.judge 2)]) :=
  ⟨by decide, by decide, by decide,
    precision_zero_halts envOnePdf (9 / 10) 2 0 ["milky", "way"]
      (by decide) (by decide) (by decide)⟩

/-! ## C10: empty documents contribute to neither centroid -/

theorem rocchioAccum_nil (log2 : ℚ → ℚ) (N : ℕ) (df : DFMap) (relevance : List Bool)
    (idx : ℕ) (acc : TermVector × TermVector × ℕ × ℕ) :
    rocchioAccum log2 N df relevance idx [] acc = some acc := rfl

theorem rocchioAccum_empty_head (log2 : ℚ → ℚ) (N : ℕ) (df : DFMap) (relevance : List Bool)
    (idx : ℕ) (post : List TFMap) (acc : TermVector × TermVector × ℕ × ℕ) :
    rocchioAccum log2 N df relevance idx ([] :: post) acc =
      rocchioAccum log2 N df relevance (idx + 1) post acc := by
  obtain ⟨rv, nv, nr, nn⟩ := acc
  simp [rocchioAccum]

theorem rocchioAccum_cons_ne (log2 : ℚ → ℚ) (N : ℕ) (df : DFMap) (relevance : List Bool)
    (idx : ℕ) (m : TFMap) (rest : List TFMap) (rv nv : TermVector) (nr nn : ℕ)
    (hm : ¬ m = []) :
    rocchioAccum log2 N df relevance idx (m :: rest) (rv, nv, nr, nn) =
      match relevance[idx]? with
      | none => none
      | some rel =>
        if rel then
          rocchioAccum log2 N df relevance (idx + 1) rest
            (vecAdd rv (compute_doc_vector log2 m N df), nv, nr + 1, nn)
        else
          rocchioAccum log2 N df relevance (idx + 1) rest
            (rv, vecAdd nv (compute_doc_vector log2 m N df), nr, nn + 1) := by
  simp [rocchioAccum, hm]

theorem rocchioAccum_append (log2 : ℚ → ℚ) (N : ℕ) (df : DFMap) (relevance : List Bool)
    (l1 l2 : List TFMap) :
    ∀ (idx : ℕ) (acc : TermVector × TermVector × ℕ × ℕ),
      rocchioAccum log2 N df relevance idx (l1 ++ l2) acc =
        (rocchioAccum log2 N df relevance idx l1 acc).bind
          (fun acc2 => rocchioAccum log2 N df relevance (idx + l1.length) l2 acc2) := by
  induction l1 with
  | nil =>
    intro idx acc
    simp [rocchioAccum_nil]
  | cons m rest ih =>
    intro idx acc
    obtain ⟨rv, nv, nr, nn⟩ := acc
    have harith : idx + 1 + rest.length = idx + (m :: rest).length := by
      simp [List.length_cons]
      omega
    by_cases hm : m = []
    · subst hm
      rw [List.cons_append, rocchioAccum_empty_head, rocchioAccum_empty_head, ih, harith]
    · rw [List.cons_append, rocchioAccum_cons_ne _ _ _ _ _ _ _ _ _ _ _ hm,
        rocchioAccum_cons_ne _ _ _ _ _ _ _ _ _ _ _ hm]
      cases relevance[idx]? with
      | none => simp
      | some rel =>
        cases rel <;> simp [ih, harith]

/-- C10: a document whose term-frequency map is empty is counted toward
neither centroid, whatever its judgment is: at the head of the remaining
batch the accumulation over it leaves the whole accumulator (both centroid
vectors and both counters) untouched and never reads its judgment, and in the
middle of a batch the whole accumulation factors through it with the
accumulator passed through unchanged. -/
theorem rocchio_empty_doc_no_contribution (log2 : ℚ → ℚ) (N : ℕ) (df : DFMap)
    (relevance : List Bool) (pre post : List TFMap) (idx : ℕ)
    (acc : TermVector × TermVector × ℕ × ℕ) :
    (rocchioAccum log2 N df relevance idx ([] :: post) acc =
      rocchioAccum log2 N df relevance (idx + 1) post acc) ∧
    (rocchioAccum log2 N df relevance 0 (pre ++ [] :: post) acc =
      (rocchioAccum log2 N df relevance 0 pre acc).bind
        (fun acc2 => rocchioAccum log2 N df relevance (pre.length + 1) post acc2)) := by
  constructor
  · exact rocchioAccum_empty_head log2 N df relevance idx post acc
  · rw [rocchioAccum_append]
    simp only [Nat.zero_add]
    have hfun : (fun acc2 => rocchioAccum log2 N df relevance pre.length ([] :: post) acc2)
        = (fun acc2 => rocchioAccum log2 N df relevance (pre.length + 1) post acc2) := by
      funext acc2
      rw [rocchioAccum_empty_head]
    rw [hfun]

/-! ## C9: the normalized document vector -/

theorem cdvStep_get_ne (log2 : ℚ → ℚ) (total_terms N : ℕ) (df : DFMap)
    (v : TermVector) (p : String × ℕ) (t : String) (h : p.1 ≠ t) :
    dGet (cdvStep log2 total_terms N df v p) t = dGet v t := by
  rw [cdvStep]
  cases dGet df p.1 with
  | none => rfl
  | some d =>
    by_cases hd : 0 < d
    · simp only [if_pos hd]
      exact dGet_dSet_ne v _ (Ne.symm h)
    · simp only [if_neg hd]

theorem cdv_foldl_get_of_not_mem (log2 : ℚ → ℚ) (total_terms N : ℕ) (df : DFMap)
    (l : TFMap) (v : TermVector) (t : String) (h : ∀ p ∈ l, p.1 ≠ t) :
    dGet (l.foldl (cdvStep log2 total_terms N df) v) t = dGet v t := by
  induction l generalizing v with
  | nil => rfl
  | cons p rest ih =>
    rw [List.foldl_cons, ih _ (fun q hq => h q (List.mem_cons_of_mem _ hq)),
      cdvStep_get_ne _ _ _ _ _ _ _ (h p (List.mem_cons_self _ _))]

theorem cdv_foldl_get (log2 : ℚ → ℚ) (total_terms N : ℕ) (df : DFMap)
    (t : String) (tf d : ℕ) (hdf : dGet df t = some d) (hd : 0 < d)
    (l : TFMap) : ∀ (v : TermVector), (dKeys l).Nodup → dGet l t = some tf →
      dGet (l.foldl (cdvStep log2 total_terms N df) v) t =
        some (((tf : ℚ) / (total_terms : ℚ)) * log2 ((N : ℚ) / (d : ℚ))) := by
  induction l with
  | nil => intro v _ hl; simp [dGet, List.find?] at hl
  | cons p rest ih =>
    intro v hn hl
    obtain ⟨a, b⟩ := p
    rw [dKeys_cons, List.nodup_cons] at hn
    rw [dGet_cons] at hl
    by_cases ha : a = t
    · subst ha
      rw [if_pos rfl] at hl
      have hb : b = tf := by simpa using hl
      subst hb
      rw [List.foldl_cons,
        cdv_foldl_get_of_not_mem log2 total_terms N df rest _ a
          (fun p hp hpa => hn.1 (by
            have hmem : p.1 ∈ dKeys rest := by
              simp only [dKeys, List.mem_map]
              exact ⟨p, hp, rfl⟩
            rw [hpa] at hmem
            exact hmem))]
      have hstep : cdvStep log2 total_terms N df v (a, b) =
          dSet v a (((b : ℚ) / (total_terms : ℚ)) * log2 ((N : ℚ) / (d : ℚ))) := by
        simp only [cdvStep, hdf, if_pos hd]
      rw [hstep]
      exact dGet_dSet_self v a _
    · rw [if_neg ha] at hl
      rw [List.foldl_cons]
      exact ih (cdvStep log2 total_terms N df v (a, b)) hn.2 hl

theorem buildIndexAux_length (tok : String → List String) (fetch : String → String)
    (uft : Bool) : ∀ (results : List Doc) (df : DFMap),
      (buildIndexAux tok fetch uft results df).1.length = results.length := by
  intro results
  induction results with
  | nil => intro df; rfl
  | cons doc rest ih =>
    intro df
    by_cases hdoc : doc.is_html = false
    · simp [buildIndexAux, hdoc, ih]
    · simp [buildIndexAux, hdoc, ih]

theorem build_tfidf_index_length (tok : String → List String) (fetch : String → String)
    (results : List Doc) (uft : Bool) :
    (build_tfidf_index tok fetch results uft).1.length = results.length :=
  buildIndexAux_length tok fetch uft results []

/-- C9: for a term-frequency map with total count T, compute_doc_vector maps
to the empty vector when T = 0; otherwise it assigns each term t of the map
with positive document frequency d the weight (tf / T) * log2(N / d); and the
N the selector passes is the full batch size, since build_tfidf_index emits
exactly one term-frequency map per document, non-indexable ones included. -/
theorem compute_doc_vector_spec (log2 : ℚ → ℚ) (tf_map : TFMap) (N : ℕ) (df : DFMap)
    (hnodup : (dKeys tf_map).Nodup) :
    ((tf_map.map Prod.snd).sum = 0 → compute_doc_vector log2 tf_map N df = []) ∧
    (∀ t tf d, dGet tf_map t = some tf → dGet df t = some d → 0 < d →
      (tf_map.map Prod.snd).sum ≠ 0 →
      dGet (compute_doc_vector log2 tf_map N df) t =
        some (((tf : ℚ) / (((tf_map.map Prod.snd).sum : ℕ) : ℚ)) *
          log2 ((N : ℚ) / (d : ℚ)))) ∧
    (∀ (tok : String → List String) (fetch : String → String)
      (results : List Doc) (uft : Bool),
      (build_tfidf_index tok fetch results uft).1.length = results.length) := by
  refine ⟨?_, ?_, ?_⟩
  · intro h0
    simp [compute_doc_vector, h0]
  · intro t tf d htf hdf hd htot
    rw [compute_doc_vector]
    rw [if_neg htot]
    exact cdv_foldl_get log2 _ N df t tf d hdf hd tf_map [] hnodup htf
  · intro tok fetch results uft
    exact build_tfidf_index_length tok fetch results uft

/-- Witness for C9: a two-term document (total 3) in a batch of size 2 with
df("alpha") = 1 gets weight (2/3) * log2(2/1) for "alpha". -/
theorem compute_doc_vector_spec_witness :
    (dKeys ([("alpha", 2), ("beta", 1)] : TFMap)).Nodup ∧
    dGet ([("alpha", 2), ("beta", 1)] : TFMap) "alpha" = some 2 ∧
    dGet ([("alpha", 1)] : DFMap) "alpha" = some 1 ∧
    ((([("alpha", 2), ("beta", 1)] : TFMap).map Prod.snd).sum ≠ 0) ∧
    dGet (compute_doc_vector (fun _ => 5) [("alpha", 2), ("beta", 1)] 2 [("alpha", 1)]) "alpha" =
      some (((2 : ℚ) / (((([("alpha", 2), ("beta", 1)] : TFMap).map Prod.snd).sum : ℕ) : ℚ)) *
        (fun _ => (5 : ℚ)) ((2 : ℚ) / ((1 : ℕ) : ℚ))) :=
  ⟨by decide, by decide, by decide, by decide,
    (compute_doc_vector_spec (fun _ => 5) [("alpha", 2), ("beta", 1)] 2 [("alpha", 1)]
      (by decide)).2.1 "alpha" 2 1 (by decide) (by decide) (by decide) (by decide)⟩

/-! ## C5: document-frequency invariants of the indexer -/

theorem mem_dedupKeepFirst (t : String) : ∀ (l : List String),
    t ∈ dedupKeepFirst l ↔ t ∈ l := by
  intro l
  induction l with
  | nil => simp [dedupKeepFirst]
  | cons x rest ih =>
    simp only [dedupKeepFirst, List.mem_cons, List.mem_filter, ih]
    constructor
    · rintro (rfl | ⟨h, _⟩)
      · exact Or.inl rfl
      · exact Or.inr h
    · rintro (rfl | h)
      · exact Or.inl rfl
      · by_cases hx : t = x
        · exact Or.inl hx
        · exact Or.inr ⟨h, by simpa using hx⟩

theorem nodup_dedupKeepFirst : ∀ (l : List String), (dedupKeepFirst l).Nodup := by
  intro l
  induction l with
  | nil => simp [dedupKeepFirst]
  | cons x rest ih =>
    rw [dedupKeepFirst, List.nodup_cons]
    refine ⟨?_, ih.filter _⟩
    intro hx
    have := (List.mem_filter.mp hx).2
    simp at this

theorem dGetD_incr_fold_nodup (L : List String) : L.Nodup → ∀ (df : DFMap) (t : String),
    dGetD (L.foldl (fun m x => dSet m x (dGetD m x 0 + 1)) df) t 0 =
      dGetD df t 0 + (if t ∈ L then 1 else 0) := by
  induction L with
  | nil => intro _ df t; simp
  | cons a rest ih =>
    intro hL df t
    rcases List.nodup_cons.mp hL with ⟨ha, hrest⟩
    rw [List.foldl_cons, ih hrest]
    by_cases hta : t = a
    · subst hta
      have h1 : dGetD (dSet df t (dGetD df t 0 + 1)) t 0 = dGetD df t 0 + 1 := by
        simp [dGetD, dGet_dSet_self]
      rw [h1, if_neg ha, if_pos (List.mem_cons_self _ _)]
    · have h2 : dGetD (dSet df a (dGetD df a 0 + 1)) t 0 = dGetD df t 0 := by
        simp [dGetD, dGet_dSet_ne df _ hta]
      rw [h2]
      by_cases htr : t ∈ rest
      · rw [if_pos htr, if_pos (List.mem_cons_of_mem _ htr)]
      · rw [if_neg htr, if_neg (by simp [List.mem_cons, hta, htr])]

theorem bumpDF_getD (df : DFMap) (tokens : List String) (t : String) :
    dGetD (bumpDF df tokens) t 0 =
      dGetD df t 0 + (if t ∈ tokens then 1 else 0) := by
  rw [bumpDF, dGetD_incr_fold_nodup _ (nodup_dedupKeepFirst tokens) df t]
  by_cases h : t ∈ tokens
  · rw [if_pos ((mem_dedupKeepFirst t tokens).mpr h), if_pos h]
  · rw [if_neg (fun hc => h ((mem_dedupKeepFirst t tokens).mp hc)), if_neg h]

theorem mem_dKeys_foldl_dSet {α : Type} (g : List (String × α) → String → α) (L : List String) :
    ∀ (init : List (String × α)) (t : String), t ∈ L ∨ t ∈ dKeys init →
      t ∈ dKeys (L.foldl (fun m x => dSet m x (g m x)) init) := by
  induction L with
  | nil =>
    intro init t h
    rcases h with h | h
    · simp at h
    · exact h
  | cons a rest ih =>
    intro init t h
    rw [List.foldl_cons]
    apply ih
    rcases h with h | h
    · rcases List.mem_cons.mp h with rfl | h2
      · exact Or.inr ((mem_dKeys_dSet init t (g init t) t).mpr (Or.inr rfl))
      · exact Or.inl h2
    · exact Or.inr ((mem_dKeys_dSet init a (g init a) t).mpr (Or.inl h))

theorem buildTF_mem_keys (tokens : List String) (t : String) (h : t ∈ tokens) :
    t ∈ dKeys (buildTF tokens) :=
  mem_dKeys_foldl_dSet (fun m x => dGetD m x 0 + 1) tokens [] t (Or.inl h)

theorem buildIndexAux_df_le (tok : String → List String) (fetch : String → String)
    (uft : Bool) : ∀ (results : List Doc) (df : DFMap) (t : String),
      dGetD (buildIndexAux tok fetch uft results df).2 t 0 ≤ dGetD df t 0 + results.length := by
  intro results
  induction results with
  | nil => intro df t; simp [buildIndexAux]
  | cons doc rest ih =>
    intro df t
    by_cases hdoc : doc.is_html = false
    · simp only [buildIndexAux, if_pos hdoc]
      calc dGetD (buildIndexAux tok fetch uft rest df).2 t 0
          ≤ dGetD df t 0 + rest.length := ih df t
        _ ≤ dGetD df t 0 + (doc :: rest).length := by
            simp only [List.length_cons]
            omega
    · simp only [buildIndexAux, if_neg hdoc]
      set tokens := tok (if uft then doc.title ++ " " ++ fetch doc.url
        else doc.title ++ " " ++ doc.snippet) with htokens
      calc dGetD (buildIndexAux tok fetch uft rest (bumpDF df tokens)).2 t 0
          ≤ dGetD (bumpDF df tokens) t 0 + rest.length := ih _ t
        _ ≤ (dGetD df t 0 + 1) + rest.length := by
            rw [bumpDF_getD]
            by_cases hm : t ∈ tokens <;> simp [hm]
        _ = dGetD df t 0 + (doc :: rest).length := by
            simp only [List.length_cons]
            omega

theorem buildIndexAux_df_mem (tok : String → List String) (fetch : String → String)
    (uft : Bool) : ∀ (results : List Doc) (df : DFMap) (t : String),
      dGetD df t 0 = 0 → 0 < dGetD (buildIndexAux tok fetch uft results df).2 t 0 →
      ∃ (i : ℕ) (tfm : TFMap) (doc : Doc),
        (buildIndexAux tok fetch uft results df).1[i]? = some tfm ∧
        results[i]? = some doc ∧ (dGet tfm t).isSome ∧ doc.is_html = true := by
  intro results
  induction results with
  | nil =>
    intro df t h0 hpos
    simp only [buildIndexAux] at hpos
    omega
  | cons doc rest ih =>
    intro df t h0 hpos
    by_cases hdoc : doc.is_html = false
    · simp only [buildIndexAux, if_pos hdoc] at hpos ⊢
      obtain ⟨i, tfm, doc2, h1, h2, h3, h4⟩ := ih df t h0 hpos
      refine ⟨i + 1, tfm, doc2, ?_, ?_, h3, h4⟩
      · rw [List.getElem?_cons_succ]
        exact h1
      · rw [List.getElem?_cons_succ]
        exact h2
    · simp only [buildIndexAux, if_neg hdoc] at hpos ⊢
      set tokens := tok (if uft then doc.title ++ " " ++ fetch doc.url
        else doc.title ++ " " ++ doc.snippet) with htokens
      by_cases hm : t ∈ tokens
      · refine ⟨0, buildTF tokens, doc, List.getElem?_cons_zero, List.getElem?_cons_zero, ?_, ?_⟩
        · rw [dGet_isSome_iff]
          exact buildTF_mem_keys tokens t hm
        · cases hh : doc.is_html
          · exact absurd hh hdoc
          · rfl
      · have h0b : dGetD (bumpDF df tokens) t 0 = 0 := by
          rw [bumpDF_getD, if_neg hm, h0]
        obtain ⟨i, tfm, doc2, h1, h2, h3, h4⟩ := ih (bumpDF df tokens) t h0b hpos
        refine ⟨i + 1, tfm, doc2, ?_, ?_, h3, h4⟩
        · rw [List.getElem?_cons_succ]
          exact h1
        · rw [List.getElem?_cons_succ]
          exact h2

/-- C5 (amended claim): every document-frequency count is at most the number
of documents in the batch, build_tfidf_index emits exactly one
term-frequency map per document, and every term with nonzero document
frequency occurs in the term-frequency map of an indexable document of the
batch (at the same position). -/
theorem build_tfidf_index_invariants (tok : String → List String) (fetch : String → String)
    (results : List Doc) (uft : Bool) (t : String) (c : ℕ)
    (hc : dGet (build_tfidf_index tok fetch results uft).2 t = some c) :
    c ≤ results.length ∧
    (build_tfidf_index tok fetch results uft).1.length = results.length ∧
    (0 < c → ∃ (i : ℕ) (tfm : TFMap) (doc : Doc),
      (build_tfidf_index tok fetch results uft).1[i]? = some tfm ∧
      results[i]? = some doc ∧ (dGet tfm t).isSome ∧ doc.is_html = true) := by
  have hgd : dGetD (build_tfidf_index tok fetch results uft).2 t 0 = c := by
    rw [dGetD, hc]
    rfl
  have hnil : dGetD ([] : DFMap) t 0 = 0 := rfl
  refine ⟨?_, build_tfidf_index_length tok fetch results uft, ?_⟩
  · have hle := buildIndexAux_df_le tok fetch uft results [] t
    rw [build_tfidf_index] at hgd
    rw [hgd, hnil] at hle
    simpa using hle
  · intro hpos
    have hmem := buildIndexAux_df_mem tok fetch uft results [] t hnil
    rw [build_tfidf_index] at hgd
    rw [hgd] at hmem
    exact hmem hpos

/-- C5 (counterexample to the claim as stated): one indexable document whose
text yields two distinct terms produces a document-frequency map with two
entries — more entries than the one-document batch has documents. The bound
that does hold is on the df values, not on the number of entries. -/
theorem df_entries_exceed_batch :
    ¬ ((build_tfidf_index (tokenize pySplit []) (fun _ => "")
        [⟨"alpha beta", "u", "", true⟩] false).2.length ≤
      ([⟨"alpha beta", "u", "", true⟩] : List Doc).length) := by
  decide

/-- Witness for C5 at the same concrete batch: df("alpha") = 1 is bounded by
the batch size and "alpha" occurs in the indexable document's map. -/
theorem build_tfidf_index_invariants_witness :
    dGet (build_tfidf_index (tokenize pySplit []) (fun _ => "")
        [⟨"alpha beta", "u", "", true⟩] false).2 "alpha" = some 1 ∧
    (1 ≤ ([⟨"alpha beta", "u", "", true⟩] : List Doc).length ∧
      (build_tfidf_index (tokenize pySplit []) (fun _ => "")
        [⟨"alpha beta", "u", "", true⟩] false).1.length =
        ([⟨"alpha beta", "u", "", true⟩] : List Doc).length ∧
      (0 < 1 → ∃ (i : ℕ) (tfm : TFMap) (doc : Doc),
        (build_tfidf_index (tokenize pySplit []) (fun _ => "")
          [⟨"alpha beta", "u", "", true⟩] false).1[i]? = some tfm ∧
        ([⟨"alpha beta", "u", "", true⟩] : List Doc)[i]? = some doc ∧
        (dGet tfm "alpha").isSome ∧ doc.is_html = true)) :=
  ⟨by decide,
    build_tfidf_index_invariants (tokenize pySplit []) (fun _ => "")
      [⟨"alpha beta", "u", "", true⟩] false "alpha" 1 (by decide)⟩

/-! ## C7: all document maps empty gives alpha * Q0 and no new terms -/

theorem rocchioAccum_all_empty (log2 : ℚ → ℚ) (N : ℕ) (df : DFMap) (relevance : List Bool) :
    ∀ (docs_tokens : List TFMap), (∀ m ∈ docs_tokens, m = []) →
    ∀ (idx : ℕ) (acc : TermVector × TermVector × ℕ × ℕ),
      rocchioAccum log2 N df relevance idx docs_tokens acc = some acc := by
  intro docs_tokens
  induction docs_tokens with
  | nil => intro _ idx acc; rfl
  | cons m rest ih =>
    intro hempty idx acc
    have hm : m = [] := hempty m (List.mem_cons_self _ _)
    subst hm
    rw [rocchioAccum_empty_head]
    exact ih (fun m2 hm2 => hempty m2 (List.mem_cons_of_mem _ hm2)) (idx + 1) acc

theorem foldl_dSet_eq_append {α : Type} (g : String × α → α) :
    ∀ (l : List (String × α)) (init : List (String × α)),
      (dKeys l).Nodup → (∀ t ∈ dKeys l, t ∉ dKeys init) →
      l.foldl (fun m p => dSet m p.1 (g p)) init = init ++ l.map (fun p => (p.1, g p)) := by
  intro l
  induction l with
  | nil => intro init _ _; simp
  | cons p rest ih =>
    intro init hn hdisj
    rw [List.foldl_cons]
    have hp : p.1 ∉ dKeys init := hdisj p.1 (by rw [dKeys_cons]; exact List.mem_cons_self _ _)
    rw [dSet_of_not_mem init p.1 (g p) hp]
    rw [dKeys_cons, List.nodup_cons] at hn
    have hdisj2 : ∀ t ∈ dKeys rest, t ∉ dKeys (init ++ [(p.1, g p)]) := by
      intro t ht
      have htinit : t ∉ dKeys init :=
        hdisj t (by rw [dKeys_cons]; exact List.mem_cons_of_mem _ ht)
      have htp : ¬ t = p.1 := fun e => hn.1 (e ▸ ht)
      have hkeys : dKeys (init ++ [(p.1, g p)]) = dKeys init ++ [p.1] := by simp [dKeys]
      rw [hkeys, List.mem_append, List.mem_singleton]
      rintro (h | h)
      · exact htinit h
      · exact htp h
    rw [ih (init ++ [(p.1, g p)]) hn.2 hdisj2]
    simp

theorem buildQ0_eq_foldl (current_query_terms : List String) :
    buildQ0 current_query_terms =
      (current_query_terms.map strLower).foldl
        (fun m x => dSet m x (dGetD m x 0 + 1)) [] := by
  rw [buildQ0, List.foldl_map]

theorem buildQ0_nodup (current_query_terms : List String) :
    (dKeys (buildQ0 current_query_terms)).Nodup := by
  rw [buildQ0_eq_foldl]
  exact nodup_dKeys_foldl _ (fun m a hm => nodup_dKeys_dSet m _ _ hm) _ [] (by simp [dKeys])

theorem buildQ0_keys (current_query_terms : List String) (t : String)
    (h : t ∈ dKeys (buildQ0 current_query_terms)) :
    t ∈ current_query_terms.map strLower := by
  rw [buildQ0_eq_foldl] at h
  have hout := mem_dKeys_foldl (fun m x => dSet m x (dGetD m x 0 + 1))
    (fun x => [x]) ?hstep (current_query_terms.map strLower) [] t h
  · rcases hout with h2 | ⟨a, ha, ht⟩
    · simp [dKeys] at h2
    · rw [List.mem_singleton] at ht
      exact ht ▸ ha
  case hstep =>
    intro m a s hs
    rcases (mem_dKeys_dSet m a _ s).mp hs with h3 | h3
    · exact Or.inl h3
    · exact Or.inr (by rw [List.mem_singleton]; exact h3)

theorem buildQ0_keys_conv (current_query_terms : List String) (t : String)
    (h : t ∈ current_query_terms.map strLower) :
    t ∈ dKeys (buildQ0 current_query_terms) := by
  rw [buildQ0_eq_foldl]
  exact mem_dKeys_foldl_dSet (fun m x => dGetD m x 0 + 1)
    (current_query_terms.map strLower) [] t (Or.inl h)

theorem dGetD_count_fold (L : List String) : ∀ (init : TermVector) (t : String),
    dGetD (L.foldl (fun m x => dSet m x (dGetD m x 0 + 1)) init) t 0 =
      dGetD init t 0 + (L.count t : ℚ) := by
  induction L with
  | nil => intro init t; simp
  | cons a rest ih =>
    intro init t
    rw [List.foldl_cons, ih]
    by_cases hta : t = a
    · subst hta
      have h1 : dGetD (dSet init t (dGetD init t 0 + 1)) t 0 = dGetD init t 0 + 1 := by
        simp [dGetD, dGet_dSet_self]
      rw [h1, List.count_cons_self]
      push_cast
      ring
    · have h2 : dGetD (dSet init a (dGetD init a 0 + 1)) t 0 = dGetD init t 0 := by
        simp [dGetD, dGet_dSet_ne init _ hta]
      rw [h2, List.count_cons_of_ne hta]

theorem dGet_eq_some_getD {α : Type} (m : List (String × α)) (t : String) (d : α)
    (h : t ∈ dKeys m) : dGet m t = some (dGetD m t d) := by
  have hs := (dGet_isSome_iff m t).mpr h
  cases hg : dGet m t with
  | none => rw [hg] at hs; simp at hs
  | some v => rw [dGetD, hg]; rfl

theorem buildQ0_get_of_mem (current_query_terms : List String) (t : String)
    (h : t ∈ current_query_terms.map strLower) :
    dGet (buildQ0 current_query_terms) t =
      some (((current_query_terms.map strLower).count t : ℚ)) := by
  rw [dGet_eq_some_getD _ t 0 (buildQ0_keys_conv current_query_terms t h)]
  rw [buildQ0_eq_foldl, dGetD_count_fold]
  simp [dGetD, dGet_nil]

theorem buildQ0_get_of_not_mem (current_query_terms : List String) (t : String)
    (h : t ∉ current_query_terms.map strLower) :
    dGet (buildQ0 current_query_terms) t = none :=
  dGet_eq_none_of_not_mem (fun hc => h (buildQ0_keys current_query_terms t hc))

theorem newQueryVec_empty_centroids (alpha beta gamma : ℚ) (Q0 : TermVector)
    (hn : (dKeys Q0).Nodup) :
    newQueryVec alpha beta gamma Q0 [] [] = Q0.map (fun p => (p.1, alpha * p.2)) := by
  rw [newQueryVec]
  simp only [List.foldl_nil]
  rw [foldl_dSet_eq_append (fun p => alpha * p.2) Q0 [] hn (by simp [dKeys])]
  simp

/-- C7: when every document's term-frequency map is empty, the computed new
query vector is exactly alpha * Q0 entrywise — with Q0 assigning each
lowercased current query term its multiplicity and nothing else — and since
every term of that vector is already in the current query, the selector
returns the empty term list. -/
theorem rocchio_all_empty_docs (log2 : ℚ → ℚ) (current_query_terms : List String)
    (docs_tokens : List TFMap) (df : DFMap) (relevance : List Bool)
    (max_new_terms : ℕ) (alpha beta gamma : ℚ)
    (hempty : ∀ m ∈ docs_tokens, m = []) :
    rocchio_new_query_vec log2 current_query_terms docs_tokens df relevance alpha beta gamma =
      some ((buildQ0 current_query_terms).map (fun p => (p.1, alpha * p.2))) ∧
    (∀ t, t ∈ current_query_terms.map strLower →
      dGet (buildQ0 current_query_terms) t =
        some (((current_query_terms.map strLower).count t : ℚ))) ∧
    (∀ t, t ∉ current_query_terms.map strLower →
      dGet (buildQ0 current_query_terms) t = none) ∧
    pick_new_terms_rocchio log2 current_query_terms docs_tokens df relevance
      max_new_terms alpha beta gamma = some [] := by
  have hacc := rocchioAccum_all_empty log2 docs_tokens.length df relevance docs_tokens hempty
    0 ([], [], 0, 0)
  have hvec : rocchio_new_query_vec log2 current_query_terms docs_tokens df relevance
      alpha beta gamma =
      some ((buildQ0 current_query_terms).map (fun p => (p.1, alpha * p.2))) := by
    rw [rocchio_new_query_vec, hacc]
    simp only [Nat.lt_irrefl, if_false]
    rw [newQueryVec_empty_centroids alpha beta gamma _ (buildQ0_nodup current_query_terms)]
  refine ⟨hvec, fun t ht => buildQ0_get_of_mem _ t ht,
    fun t ht => buildQ0_get_of_not_mem _ t ht, ?_⟩
  rw [pick_new_terms_rocchio, hvec]
  have hfilter : ((buildQ0 current_query_terms).map (fun p => (p.1, alpha * p.2))).filter
      (fun p => !((current_query_terms.map strLower).contains p.1)) = [] := by
    rw [List.filter_eq_nil]
    intro p hp
    have hkey : p.1 ∈ dKeys (buildQ0 current_query_terms) := by
      rcases List.mem_map.mp hp with ⟨q2, hq2, hpe⟩
      rw [← hpe]
      simp only [dKeys, List.mem_map]
      exact ⟨q2, hq2, rfl⟩
    have hcs : p.1 ∈ current_query_terms.map strLower :=
      buildQ0_keys current_query_terms p.1 hkey
    have hel : List.elem p.1 (current_query_terms.map strLower) = true :=
      List.elem_eq_true_of_mem hcs
    simp only [List.contains, hel, Bool.not_true, Bool.false_eq_true, not_false_eq_true]
  simp only [hfilter]
  rfl

/-- Witness for C7: two empty document maps, query terms "Milky way", alpha 2:
the new query vector is exactly 2 * Q0 and no term is selected. -/
theorem rocchio_all_empty_docs_witness :
    (∀ m ∈ ([[], []] : List TFMap), m = []) ∧
    (rocchio_new_query_vec (fun _ => 0) ["Milky", "way"] [[], []] [("x", 3)] [] 2 (3 / 4)
        (3 / 20) =
      some ((buildQ0 ["Milky", "way"]).map (fun p => (p.1, 2 * p.2))) ∧
    (∀ t, t ∈ (["Milky", "way"].map strLower) →
      dGet (buildQ0 ["Milky", "way"]) t =
        some (((["Milky", "way"].map strLower).count t : ℚ))) ∧
    (∀ t, t ∉ ["Milky", "way"].map strLower →
      dGet (buildQ0 ["Milky", "way"]) t = none) ∧
    pick_new_terms_rocchio (fun _ => 0) ["Milky", "way"] [[], []] [("x", 3)] [] 2 2 (3 / 4)
        (3 / 20) =
      some []) :=
  ⟨by decide,
    rocchio_all_empty_docs (fun _ => 0) ["Milky", "way"] [[], []] [("x", 3)] [] 2 2 (3 / 4)
      (3 / 20) (by decide)⟩

/-! ## C1: properties of the Rocchio term selection -/

theorem fst_mem_dKeys {α : Type} (m : List (String × α)) (p : String × α) (h : p ∈ m) :
    p.1 ∈ dKeys m := by
  simp only [dKeys, List.mem_map]
  exact ⟨p, h, rfl⟩

theorem selectLoop_length (max_new_terms : ℕ) :
    ∀ (cands : List (String × ℚ)) (acc : List String), acc.length < max_new_terms →
      (selectLoop max_new_terms cands acc).length ≤ max_new_terms := by
  intro cands
  induction cands with
  | nil =>
    intro acc h
    rw [selectLoop]
    omega
  | cons p rest ih =>
    intro acc h
    obtain ⟨term, score⟩ := p
    simp only [selectLoop]
    set acc2 := if 0 < score then acc ++ [term] else acc with hacc2
    have hlen2 : acc2.length ≤ acc.length + 1 := by
      rw [hacc2]
      by_cases hs : (0 : ℚ) < score <;> simp [hs]
    by_cases hl : max_new_terms ≤ acc2.length
    · rw [if_pos hl]
      omega
    · rw [if_neg hl]
      exact ih acc2 (by omega)

theorem selectLoop_mem (max_new_terms : ℕ) :
    ∀ (cands : List (String × ℚ)) (acc : List String) (t : String),
      t ∈ selectLoop max_new_terms cands acc →
      t ∈ acc ∨ ∃ s, (t, s) ∈ cands ∧ 0 < s := by
  intro cands
  induction cands with
  | nil =>
    intro acc t h
    rw [selectLoop] at h
    exact Or.inl h
  | cons p rest ih =>
    intro acc t h
    obtain ⟨term, score⟩ := p
    simp only [selectLoop] at h
    by_cases hs : (0 : ℚ) < score
    · rw [if_pos hs] at h
      have hacc : t ∈ acc ++ [term] → t ∈ acc ∨ ∃ s, (t, s) ∈ (term, score) :: rest ∧ 0 < s := by
        intro h2
        rcases List.mem_append.mp h2 with h3 | h3
        · exact Or.inl h3
        · rw [List.mem_singleton] at h3
          subst h3
          exact Or.inr ⟨score, List.mem_cons_self _ _, hs⟩
      by_cases hl : max_new_terms ≤ (acc ++ [term]).length
      · rw [if_pos hl] at h
        exact hacc h
      · rw [if_neg hl] at h
        rcases ih _ t h with h2 | ⟨s, hmem, hpos⟩
        · exact hacc h2
        · exact Or.inr ⟨s, List.mem_cons_of_mem _ hmem, hpos⟩
    · rw [if_neg hs] at h
      by_cases hl : max_new_terms ≤ acc.length
      · rw [if_pos hl] at h
        exact Or.inl h
      · rw [if_neg hl] at h
        rcases ih _ t h with h2 | ⟨s, hmem, hpos⟩
        · exact Or.inl h2
        · exact Or.inr ⟨s, List.mem_cons_of_mem _ hmem, hpos⟩

theorem mem_insertDesc (p q : String × ℚ) (l : List (String × ℚ)) :
    q ∈ insertDesc p l ↔ q = p ∨ q ∈ l := by
  induction l with
  | nil => simp [insertDesc]
  | cons r rest ih =>
    rw [insertDesc]
    by_cases h : r.2 ≤ p.2
    · rw [if_pos h]
      simp only [List.mem_cons]
    · rw [if_neg h]
      simp only [List.mem_cons, ih]
      tauto

theorem mem_sortByScoreDesc (q : String × ℚ) : ∀ (l : List (String × ℚ)),
    q ∈ sortByScoreDesc l ↔ q ∈ l := by
  intro l
  induction l with
  | nil => simp [sortByScoreDesc]
  | cons p rest ih =>
    rw [sortByScoreDesc, mem_insertDesc, ih, List.mem_cons]

theorem vecAdd_keys (acc v : TermVector) (t : String) (h : t ∈ dKeys (vecAdd acc v)) :
    t ∈ dKeys acc ∨ t ∈ dKeys v := by
  rw [vecAdd] at h
  have hout := mem_dKeys_foldl (fun a p => dSet a p.1 (dGetD a p.1 0 + p.2))
    (fun p => [p.1]) ?hstep v acc t h
  · rcases hout with h2 | ⟨a, ha, ht⟩
    · exact Or.inl h2
    · rw [List.mem_singleton] at ht
      right
      rw [ht]
      exact fst_mem_dKeys v a ha
  case hstep =>
    intro m a s hs
    rcases (mem_dKeys_dSet m a.1 _ s).mp hs with h3 | h3
    · exact Or.inl h3
    · exact Or.inr (by rw [List.mem_singleton]; exact h3)

theorem compute_doc_vector_keys (log2 : ℚ → ℚ) (tf_map : TFMap) (N : ℕ) (df : DFMap)
    (t : String) (h : t ∈ dKeys (compute_doc_vector log2 tf_map N df)) :
    t ∈ dKeys tf_map := by
  rw [compute_doc_vector] at h
  by_cases h0 : (tf_map.map Prod.snd).sum = 0
  · rw [if_pos h0] at h
    simp [dKeys] at h
  · rw [if_neg h0] at h
    have hout := mem_dKeys_foldl (cdvStep log2 ((tf_map.map Prod.snd).sum) N df)
      (fun p => [p.1]) ?hstep tf_map [] t h
    · rcases hout with h2 | ⟨a, ha, ht⟩
      · simp [dKeys] at h2
      · rw [List.mem_singleton] at ht
        rw [ht]
        exact fst_mem_dKeys tf_map a ha
    case hstep =>
      intro m a s hs
      rw [cdvStep] at hs
      split at hs
      · split at hs
        · rcases (mem_dKeys_dSet m a.1 _ s).mp hs with h3 | h3
          · exact Or.inl h3
          · exact Or.inr (by rw [List.mem_singleton]; exact h3)
        · exact Or.inl hs
      · exact Or.inl hs

theorem rocchioAccum_keys (log2 : ℚ → ℚ) (N : ℕ) (df : DFMap) (relevance : List Bool) :
    ∀ (docs : List TFMap) (idx : ℕ) (acc out : TermVector × TermVector × ℕ × ℕ),
      rocchioAccum log2 N df relevance idx docs acc = some out →
      ∀ t, (t ∈ dKeys out.1 → t ∈ dKeys acc.1 ∨ ∃ m ∈ docs, t ∈ dKeys m) ∧
           (t ∈ dKeys out.2.1 → t ∈ dKeys acc.2.1 ∨ ∃ m ∈ docs, t ∈ dKeys m) := by
  intro docs
  induction docs with
  | nil =>
    intro idx acc out h t
    rw [rocchioAccum_nil] at h
    cases h
    exact ⟨fun h2 => Or.inl h2, fun h2 => Or.inl h2⟩
  | cons m rest ih =>
    intro idx acc out h t
    obtain ⟨rv, nv, nr, nn⟩ := acc
    have hlift : ∀ (s : TermVector),
        (t ∈ dKeys s ∨ ∃ m2 ∈ rest, t ∈ dKeys m2) →
        (t ∈ dKeys s ∨ ∃ m2 ∈ m :: rest, t ∈ dKeys m2) := by
      rintro s (h2 | ⟨m2, hm2, ht⟩)
      · exact Or.inl h2
      · exact Or.inr ⟨m2, List.mem_cons_of_mem _ hm2, ht⟩
    by_cases hm : m = []
    · subst hm
      rw [rocchioAccum_empty_head] at h
      have hrec := ih (idx + 1) (rv, nv, nr, nn) out h t
      exact ⟨fun h2 => hlift _ (hrec.1 h2), fun h2 => hlift _ (hrec.2 h2)⟩
    · rw [rocchioAccum_cons_ne _ _ _ _ _ _ _ _ _ _ _ hm] at h
      have hdvk : ∀ s, t ∈ dKeys (vecAdd s (compute_doc_vector log2 m N df)) →
          t ∈ dKeys s ∨ ∃ m2 ∈ m :: rest, t ∈ dKeys m2 := by
        intro s hs
        rcases vecAdd_keys s _ t hs with h3 | h3
        · exact Or.inl h3
        · exact Or.inr ⟨m, List.mem_cons_self _ _,
            compute_doc_vector_keys log2 m N df t h3⟩
      split at h
      · simp at h
      · split at h
        · have hrec := ih (idx + 1) _ out h t
          constructor
          · intro h2
            rcases hrec.1 h2 with h3 | ⟨m2, hm2, ht⟩
            · exact hdvk rv h3
            · exact Or.inr ⟨m2, List.mem_cons_of_mem _ hm2, ht⟩
          · intro h2
            rcases hrec.2 h2 with h3 | ⟨m2, hm2, ht⟩
            · exact Or.inl h3
            · exact Or.inr ⟨m2, List.mem_cons_of_mem _ hm2, ht⟩
        · have hrec := ih (idx + 1) _ out h t
          constructor
          · intro h2
            rcases hrec.1 h2 with h3 | ⟨m2, hm2, ht⟩
            · exact Or.inl h3
            · exact Or.inr ⟨m2, List.mem_cons_of_mem _ hm2, ht⟩
          · intro h2
            rcases hrec.2 h2 with h3 | ⟨m2, hm2, ht⟩
            · exact hdvk nv h3
            · exact Or.inr ⟨m2, List.mem_cons_of_mem _ hm2, ht⟩

theorem vecDiv_keys (v : TermVector) (n : ℕ) : dKeys (vecDiv v n) = dKeys v := by
  simp [vecDiv, dKeys, List.map_map, Function.comp]

theorem newQueryVec_keys (alpha beta gamma : ℚ) (Q0 rv nv : TermVector) (t : String)
    (h : t ∈ dKeys (newQueryVec alpha beta gamma Q0 rv nv)) :
    t ∈ dKeys Q0 ∨ t ∈ dKeys rv ∨ t ∈ dKeys nv := by
  simp only [newQueryVec] at h
  have h3 := mem_dKeys_foldl (fun m p => dSet m p.1 (dGetD m p.1 0 - gamma * p.2))
    (fun p => [p.1]) ?s3 nv _ t h
  · rcases h3 with h3 | ⟨a, ha, ht⟩
    · have h2 := mem_dKeys_foldl (fun m p => dSet m p.1 (dGetD m p.1 0 + beta * p.2))
        (fun p => [p.1]) ?s2 rv _ t h3
      · rcases h2 with h2 | ⟨a, ha, ht⟩
        · have h1 := mem_dKeys_foldl (fun m p => dSet m p.1 (alpha * p.2))
            (fun p => [p.1]) ?s1 Q0 [] t h2
          · rcases h1 with h1 | ⟨a, ha, ht⟩
            · simp [dKeys] at h1
            · rw [List.mem_singleton] at ht
              left
              rw [ht]
              exact fst_mem_dKeys Q0 a ha
          case s1 =>
            intro m a s hs
            rcases (mem_dKeys_dSet m a.1 _ s).mp hs with h4 | h4
            · exact Or.inl h4
            · exact Or.inr (by rw [List.mem_singleton]; exact h4)
        · rw [List.mem_singleton] at ht
          right; left
          rw [ht]
          exact fst_mem_dKeys rv a ha
      case s2 =>
        intro m a s hs
        rcases (mem_dKeys_dSet m a.1 _ s).mp hs with h4 | h4
        · exact Or.inl h4
        · exact Or.inr (by rw [List.mem_singleton]; exact h4)
    · rw [List.mem_singleton] at ht
      right; right
      rw [ht]
      exact fst_mem_dKeys nv a ha
  case s3 =>
    intro m a s hs
    rcases (mem_dKeys_dSet m a.1 _ s).mp hs with h4 | h4
    · exact Or.inl h4
    · exact Or.inr (by rw [List.mem_singleton]; exact h4)

theorem newQueryVec_nodup (alpha beta gamma : ℚ) (Q0 rv nv : TermVector) :
    (dKeys (newQueryVec alpha beta gamma Q0 rv nv)).Nodup := by
  simp only [newQueryVec]
  apply nodup_dKeys_foldl _ (fun m a hm => nodup_dKeys_dSet m _ _ hm)
  apply nodup_dKeys_foldl _ (fun m a hm => nodup_dKeys_dSet m _ _ hm)
  apply nodup_dKeys_foldl _ (fun m a hm => nodup_dKeys_dSet m _ _ hm)
  simp [dKeys]

theorem rocchio_new_query_vec_some (log2 : ℚ → ℚ) (current_query_terms : List String)
    (docs_tokens : List TFMap) (df : DFMap) (relevance : List Bool)
    (alpha beta gamma : ℚ) (nqv : TermVector)
    (h : rocchio_new_query_vec log2 current_query_terms docs_tokens df relevance
      alpha beta gamma = some nqv) :
    (dKeys nqv).Nodup ∧
    ∀ t, t ∈ dKeys nqv →
      t ∈ dKeys (buildQ0 current_query_terms) ∨ ∃ m ∈ docs_tokens, t ∈ dKeys m := by
  rw [rocchio_new_query_vec] at h
  split at h
  · simp at h
  · rename_i acc relevant_vec non_relevant_vec num_rel num_non_rel heq
    simp only [Option.some.injEq] at h
    subst h
    constructor
    · exact newQueryVec_nodup _ _ _ _ _ _
    · intro t ht
      rcases newQueryVec_keys _ _ _ _ _ _ t ht with h1 | h1 | h1
      · exact Or.inl h1
      · have h2 : t ∈ dKeys relevant_vec := by
          by_cases hnr : 0 < num_rel
          · rw [if_pos hnr, vecDiv_keys] at h1
            exact h1
          · rw [if_neg hnr] at h1
            exact h1
        rcases (rocchioAccum_keys log2 docs_tokens.length df relevance docs_tokens 0
            ([], [], 0, 0) _ heq t).1 h2 with h3 | h3
        · simp [dKeys] at h3
        · exact Or.inr h3
      · have h2 : t ∈ dKeys non_relevant_vec := by
          by_cases hnn : 0 < num_non_rel
          · rw [if_pos hnn, vecDiv_keys] at h1
            exact h1
          · rw [if_neg hnn] at h1
            exact h1
        rcases (rocchioAccum_keys log2 docs_tokens.length df relevance docs_tokens 0
            ([], [], 0, 0) _ heq t).2 h2 with h3 | h3
        · simp [dKeys] at h3
        · exact Or.inr h3

/-- C1: whenever pick_new_terms_rocchio returns a term list (it can only fail
when the judgment list is shorter than the token-map list), given a positive
term budget and document maps with lowercase terms as the indexer produces,
the returned list has at most max_new_terms entries, and every returned term
has a strictly positive score in the computed new query vector, is lowercase,
and differs case-insensitively from every current query term. -/
theorem pick_new_terms_rocchio_spec (log2 : ℚ → ℚ) (current_query_terms : List String)
    (docs_tokens : List TFMap) (df : DFMap) (relevance : List Bool)
    (max_new_terms : ℕ) (alpha beta gamma : ℚ) (new_terms : List String)
    (hmax : 0 < max_new_terms)
    (hlc : ∀ m ∈ docs_tokens, ∀ p ∈ m, strLower (p : String × ℕ).1 = p.1)
    (hpick : pick_new_terms_rocchio log2 current_query_terms docs_tokens df relevance
      max_new_terms alpha beta gamma = some new_terms) :
    new_terms.length ≤ max_new_terms ∧
    ∃ nqv, rocchio_new_query_vec log2 current_query_terms docs_tokens df relevance
        alpha beta gamma = some nqv ∧
      ∀ t ∈ new_terms, (∃ s, dGet nqv t = some s ∧ 0 < s) ∧ strLower t = t ∧
        ∀ q ∈ current_query_terms, strLower q ≠ strLower t := by
  rw [pick_new_terms_rocchio] at hpick
  split at hpick
  · simp at hpick
  · rename_i nqv heq
    simp only [Option.some.injEq] at hpick
    obtain ⟨hnodup, hkeys⟩ := rocchio_new_query_vec_some log2 current_query_terms docs_tokens
      df relevance alpha beta gamma nqv heq
    refine ⟨?_, nqv, heq, ?_⟩
    · rw [← hpick]
      exact selectLoop_length max_new_terms _ [] (by simpa using hmax)
    · intro t ht
      rw [← hpick] at ht
      rcases selectLoop_mem max_new_terms _ [] t ht with h0 | ⟨s, hmem, hpos⟩
      · simp at h0
      · rw [mem_sortByScoreDesc] at hmem
        have hfil := List.mem_filter.mp hmem
        have hmemnqv : (t, s) ∈ nqv := hfil.1
        have hnotin : t ∉ current_query_terms.map strLower := by
          intro hc
          have hel : List.elem t (current_query_terms.map strLower) = true :=
            List.elem_eq_true_of_mem hc
          have hneg : (!(List.elem t (current_query_terms.map strLower))) = true := hfil.2
          rw [hel] at hneg
          simp at hneg
        have htkey : t ∈ dKeys nqv := fst_mem_dKeys nqv (t, s) hmemnqv
        have hlow : strLower t = t := by
          rcases hkeys t htkey with hq0 | ⟨m, hm, htm⟩
          · exact absurd (buildQ0_keys current_query_terms t hq0) hnotin
          · simp only [dKeys, List.mem_map] at htm
            rcases htm with ⟨p, hp, hpt⟩
            rw [← hpt]
            exact hlc m hm p hp
        refine ⟨⟨s, dGet_of_mem_nodup hnodup hmemnqv, hpos⟩, hlow, ?_⟩
        intro q hq hcontra
        apply hnotin
        rw [hlow] at hcontra
        exact List.mem_map.mpr ⟨q, hq, hcontra⟩

/-- Witness for C1 at a concrete call: query ["way"], one relevant document
{galaxy: 1} in a batch of one, df(galaxy) = 1, log2 constantly 1; the
selector returns ["galaxy"], which has positive score 3/4 in the new query
vector and is absent from the query. -/
theorem pick_new_terms_rocchio_spec_witness :
    (0 < 2) ∧
    (∀ m ∈ ([[("galaxy", 1)]] : List TFMap), ∀ p ∈ m, strLower (p : String × ℕ).1 = p.1) ∧
    pick_new_terms_rocchio (fun _ => 1) ["way"] [[("galaxy", 1)]] [("galaxy", 1)] [true]
      2 1 (3 / 4) (3 / 20) = some ["galaxy"] ∧
    ((["galaxy"] : List String).length ≤ 2 ∧
      ∃ nqv, rocchio_new_query_vec (fun _ => 1) ["way"] [[("galaxy", 1)]] [("galaxy", 1)]
          [true] 1 (3 / 4) (3 / 20) = some nqv ∧
        ∀ t ∈ (["galaxy"] : List String), (∃ s, dGet nqv t = some s ∧ 0 < s) ∧
          strLower t = t ∧ ∀ q ∈ (["way"] : List String), strLower q ≠ strLower t) := by
  have hdv : compute_doc_vector (fun _ => 1) [("galaxy", 1)] 1 [("galaxy", 1)] =
      [("galaxy", 1)] := by
    rw [compute_doc_vector]
    norm_num [cdvStep, dGet, List.find?, dSet]
  have haccum : rocchioAccum (fun _ => 1) 1 [("galaxy", 1)] [true] 0 [[("galaxy", 1)]]
      ([], [], 0, 0) = some ([("galaxy", 1)], [], 1, 0) := by
    rw [rocchioAccum_cons_ne _ _ _ _ _ _ _ _ _ _ _ (by simp)]
    simp [hdv, vecAdd, dSet, dGetD, dGet, List.find?, rocchioAccum_nil]
  have hsl : strLower "way" = "way" := by decide
  have hvec : rocchio_new_query_vec (fun _ => 1) ["way"] [[("galaxy", 1)]] [("galaxy", 1)]
      [true] 1 (3 / 4) (3 / 20) = some [("way", 1), ("galaxy", 3 / 4)] := by
    rw [rocchio_new_query_vec]
    simp only [List.length_cons, List.length_nil, Nat.zero_add]
    rw [haccum]
    norm_num [vecDiv, newQueryVec, buildQ0, dSet, dGetD, dGet, List.find?, hsl,
      (by decide : decide (("way" : String) = "galaxy") = false),
      (by decide : ¬ (("way" : String) = "galaxy"))]
  have hpick : pick_new_terms_rocchio (fun _ => 1) ["way"] [[("galaxy", 1)]] [("galaxy", 1)]
      [true] 2 1 (3 / 4) (3 / 20) = some ["galaxy"] := by
    rw [pick_new_terms_rocchio, hvec]
    norm_num [hsl, List.filter, List.contains, sortByScoreDesc, insertDesc, selectLoop,
      (by decide : List.elem "way" (List.map strLower ["way"]) = true),
      (by decide : List.elem "galaxy" (List.map strLower ["way"]) = false)]
  exact ⟨by decide, by decide, hpick,
    pick_new_terms_rocchio_spec (fun _ => 1) ["way"] [[("galaxy", 1)]] [("galaxy", 1)] [true]
      2 1 (3 / 4) (3 / 20) ["galaxy"] (by decide) (by decide) hpick⟩
